import Mathlib

/-!
Verification of the MPI pi-integration program (`src/MPI_example_code_in_C.c`).

The program approximates pi by midpoint quadrature of `4/(1+x^2)` on `[0,1]`,
splitting the `n` sample indices across `numprocs` ranks with a strided loop,
and summing the per-rank partials with `MPI_Reduce(MPI_SUM)`.

We shallowly embed the program over exact rational arithmetic (`ℚ` in place of
C `double`): the C locals that persist across iterations of the outer
`while (!done)` loop become the record `IterState`; the strided `for` loop
becomes the well-founded recursion `innerLoop`; one round of the loop body
(lines 24-30 of the source) becomes `roundCompute`; the whole per-rank loop
over the successive broadcast granularities becomes `runRank`; and the MPI
collectives are modelled by their guarantees: `MPI_Bcast` delivers the same
value `n` to every rank (so all ranks consume the same input list), and
`MPI_Reduce(MPI_SUM)` delivers the mathematical sum of the per-rank partials
(`reducedPi`).
-/

namespace MpiPi

/-- The quadrature kernel of line 28 of the source: `4.0 / (1.0 + x*x)`. -/
def kernel (x : ℚ) : ℚ := 4 / (1 + x * x)

/-- The C locals of `main` that are written and read inside the round loop
(`h`, `sum`, `x`, `i`, `mypi` of line 7-8), as one record threaded through
the loop.  (`done`, `n`, `pi`, `t0`, `t1` are handled by the run model.) -/
structure IterState where
  h : ℚ
  sum : ℚ
  x : ℚ
  i : ℤ
  mypi : ℚ
  deriving Repr, DecidableEq

/-- The strided `for` loop of lines 26-29:
`for (i = myid+1; i <= n; i += numprocs) { x = h*((double)i - 0.5); sum += 4.0/(1.0+x*x); }`.
The starting index `i` is part of the incoming state. -/
def innerLoop (n : ℤ) (gs : ℕ) (hgs : 0 < gs) (s : IterState) : IterState :=
  if _h : s.i ≤ n then
    innerLoop n gs hgs
      { s with
        x := s.h * ((s.i : ℚ) - 1/2)
        sum := s.sum + kernel (s.h * ((s.i : ℚ) - 1/2))
        i := s.i + gs }
  else s
termination_by (n + 1 - s.i).toNat
decreasing_by simp_wf; omega

/-- The set of loop indices visited by the strided loop when started at `i`:
`{i, i + gs, i + 2*gs, ...} ∩ (-∞, n]`. -/
def ownedAux (n : ℤ) (gs : ℕ) (hgs : 0 < gs) (i : ℤ) : Finset ℤ :=
  if _h : i ≤ n then insert i (ownedAux n gs hgs (i + gs)) else ∅
termination_by (n + 1 - i).toNat
decreasing_by simp_wf; omega

/-- The sample indices owned by `rank`: the strided loop of line 26 starts at
`i = myid + 1`. -/
def ownedIndices (n : ℤ) (rank gs : ℕ) (hgs : 0 < gs) : Finset ℤ :=
  ownedAux n gs hgs ((rank : ℤ) + 1)

/-- One round's integration step, lines 24-30 of the source:
`h = 1.0 / (double) n; sum = 0.0; for (i = myid+1; ...) {...}; mypi = h * sum;`
applied to whatever values the locals held at the start of the round. -/
def roundCompute (n : ℤ) (rank gs : ℕ) (hgs : 0 < gs) (prev : IterState) : IterState :=
  let s1 := innerLoop n gs hgs { prev with h := 1 / (n : ℚ), sum := 0, i := (rank : ℤ) + 1 }
  { s1 with mypi := s1.h * s1.sum }

/-- The partial result `mypi` a rank computes in a round with granularity `n`
(the locals' values entering the round are irrelevant, as proved below; we fix
an arbitrary initial state). -/
def mypi (n : ℤ) (rank gs : ℕ) (hgs : 0 < gs) : ℚ :=
  (roundCompute n rank gs hgs ⟨0, 0, 0, 0, 0⟩).mypi

/-- The total delivered to rank 0 by `MPI_Reduce(&mypi, &pi, 1, MPI_DOUBLE,
MPI_SUM, 0, ...)` (line 32): the sum of all ranks' partials. -/
def reducedPi (n : ℤ) (gs : ℕ) (hgs : 0 < gs) : ℚ :=
  ∑ r ∈ Finset.range gs, mypi n r gs hgs

/-- One rank's execution of the `while (!done)` loop (lines 13-40), given the
list of granularity values broadcast in successive rounds (every rank observes
the same list, by the `MPI_Bcast` guarantee).  Returns the list of
`(granularity, partial)` pairs of the rounds whose integration step ran, and
whether the rank left the loop via the `if (n == 0) break;` of line 20.
An exhausted input list with no `0` means the rank is still blocked inside
the loop (at `scanf`/`MPI_Bcast`), hence `false`. -/
def runRank (rank gs : ℕ) (hgs : 0 < gs) : IterState → List ℤ → List (ℤ × ℚ) × Bool
  | _, [] => ([], false)
  | s, n :: rest =>
    if n = 0 then ([], true)
    else
      ((n, (roundCompute n rank gs hgs s).mypi) ::
          (runRank rank gs hgs (roundCompute n rank gs hgs s) rest).1,
        (runRank rank gs hgs (roundCompute n rank gs hgs s) rest).2)

/-- Whole-program result for one rank (lines 13-42): if the round loop is left
(only via `break` on a broadcast `0`), `MPI_Finalize` (line 41) is reached and
the program returns `0` (line 42); `some c` means "finalization was reached and
the process exited with status `c`", `none` means the rank never left the loop. -/
def runProgram (rank gs : ℕ) (hgs : 0 < gs) (inputs : List ℤ) : Option ℕ :=
  if (runRank rank gs hgs ⟨0, 0, 0, 0, 0⟩ inputs).2 then some 0 else none

/-- The elapsed duration printed at line 36: `t1 - t0`. -/
def elapsed (t0 t1 : ℚ) : ℚ := t1 - t0

/-! Section: characterization of the strided index set. -/

/-- The indices the strided loop visits from `i` are exactly the integers of
`[i, n]` congruent to `i` modulo the stride. -/
theorem ownedAux_eq (n : ℤ) (gs : ℕ) (hgs : 0 < gs) :
    ∀ i : ℤ, ownedAux n gs hgs i =
      (Finset.Icc i n).filter (fun j => j % (gs : ℤ) = i % (gs : ℤ))
  | i => by
    rw [ownedAux]
    have hgs' : (0 : ℤ) < (gs : ℤ) := Int.ofNat_pos.mpr hgs
    by_cases h : i ≤ n
    · rw [dif_pos h, ownedAux_eq n gs hgs (i + gs)]
      ext j
      simp only [Finset.mem_insert, Finset.mem_filter, Finset.mem_Icc]
      have hmod : (i + (gs : ℤ)) % (gs : ℤ) = i % (gs : ℤ) := by
        rw [show i + (gs : ℤ) = i + (gs : ℤ) * 1 by ring, Int.add_mul_emod_self_left]
      constructor
      · rintro (rfl | ⟨⟨h1, h2⟩, h3⟩)
        · exact ⟨⟨le_refl j, h⟩, rfl⟩
        · exact ⟨⟨le_trans (by omega) h1, h2⟩, h3.trans hmod⟩
      · rintro ⟨⟨h1, h2⟩, h3⟩
        rcases eq_or_lt_of_le h1 with rfl | hlt
        · exact Or.inl rfl
        · refine Or.inr ⟨⟨?_, h2⟩, h3.trans hmod.symm⟩
          have hdvd : (gs : ℤ) ∣ j - i := by
            rcases Int.emod_eq_emod_iff_emod_sub_eq_zero.mp h3 with h4
            exact Int.dvd_of_emod_eq_zero h4
          obtain ⟨k, hk⟩ := hdvd
          have hkpos : 0 < k := by nlinarith
          nlinarith
    · rw [dif_neg h]
      have : Finset.Icc i n = ∅ := Finset.Icc_eq_empty h
      rw [this, Finset.filter_empty]
termination_by i => (n + 1 - i).toNat
decreasing_by simp_wf; omega

/-- Membership in a rank's owned index set, unfolded. -/
theorem mem_ownedIndices {n : ℤ} {rank gs : ℕ} {hgs : 0 < gs} {j : ℤ} :
    j ∈ ownedIndices n rank gs hgs ↔
      (rank : ℤ) + 1 ≤ j ∧ j ≤ n ∧ j % (gs : ℤ) = ((rank : ℤ) + 1) % (gs : ℤ) := by
  rw [ownedIndices, ownedAux_eq]
  simp only [Finset.mem_filter, Finset.mem_Icc]
  tauto

/-! Section: the loop computes the sum over the owned indices. -/

/-- Every index in the visited set is at least the starting index. -/
theorem ownedAux_lower {n : ℤ} {gs : ℕ} {hgs : 0 < gs} {i j : ℤ}
    (hj : j ∈ ownedAux n gs hgs i) : i ≤ j := by
  rw [ownedAux_eq] at hj
  exact (Finset.mem_Icc.mp (Finset.mem_filter.mp hj).1).1

/-- The strided loop leaves `h` unchanged and adds to `sum` exactly the kernel
values at the visited indices. -/
theorem innerLoop_spec (n : ℤ) (gs : ℕ) (hgs : 0 < gs) (s : IterState) :
    (innerLoop n gs hgs s).h = s.h ∧
    (innerLoop n gs hgs s).sum =
      s.sum + ∑ j ∈ ownedAux n gs hgs s.i, kernel (s.h * ((j : ℚ) - 1/2)) := by
  rw [innerLoop, ownedAux]
  by_cases h : s.i ≤ n
  · rw [dif_pos h, dif_pos h]
    obtain ⟨ih1, ih2⟩ := innerLoop_spec n gs hgs
      { s with
        x := s.h * ((s.i : ℚ) - 1/2)
        sum := s.sum + kernel (s.h * ((s.i : ℚ) - 1/2))
        i := s.i + gs }
    refine ⟨ih1, ?_⟩
    rw [ih2]
    have hnot : s.i ∉ ownedAux n gs hgs (s.i + gs) := fun hmem => by
      have := ownedAux_lower hmem
      omega
    rw [Finset.sum_insert hnot]
    ring
  · rw [dif_neg h, dif_neg h]
    simp
termination_by (n + 1 - s.i).toNat
decreasing_by simp_wf; omega

/-- The partial a round computes, in closed form: `h` times the sum of the
kernel at the midpoint samples of the owned indices — independently of the
values the locals held when the round began. -/
theorem roundCompute_mypi (n : ℤ) (rank gs : ℕ) (hgs : 0 < gs) (prev : IterState) :
    (roundCompute n rank gs hgs prev).mypi =
      (1 / (n : ℚ)) *
        ∑ j ∈ ownedIndices n rank gs hgs, kernel ((1 / (n : ℚ)) * ((j : ℚ) - 1/2)) := by
  unfold roundCompute
  obtain ⟨h1, h2⟩ := innerLoop_spec n gs hgs
    { prev with h := 1 / (n : ℚ), sum := 0, i := (rank : ℤ) + 1 }
  simp only [h1, h2, ownedIndices, zero_add]

/-- The function `mypi` in closed form. -/
theorem mypi_eq (n : ℤ) (rank gs : ℕ) (hgs : 0 < gs) :
    mypi n rank gs hgs =
      (1 / (n : ℚ)) *
        ∑ j ∈ ownedIndices n rank gs hgs, kernel ((1 / (n : ℚ)) * ((j : ℚ) - 1/2)) :=
  roundCompute_mypi n rank gs hgs _

/-- The partial of a round does not depend on the locals' values entering the
round: every variable read by the round is written first. -/
theorem roundCompute_mypi_const (n : ℤ) (rank gs : ℕ) (hgs : 0 < gs) (s : IterState) :
    (roundCompute n rank gs hgs s).mypi = mypi n rank gs hgs :=
  (roundCompute_mypi n rank gs hgs s).trans (mypi_eq n rank gs hgs).symm

/-! Section: the strided assignment is a partition of the sample range. -/

/-- Distinct ranks own disjoint index sets. -/
theorem ownedIndices_disjoint {n : ℤ} {gs : ℕ} (hgs : 0 < gs) {r₁ r₂ : ℕ}
    (h₁ : r₁ < gs) (h₂ : r₂ < gs) (hne : r₁ ≠ r₂) :
    Disjoint (ownedIndices n r₁ gs hgs) (ownedIndices n r₂ gs hgs) := by
  rw [Finset.disjoint_left]
  intro j hj₁ hj₂
  rw [mem_ownedIndices] at hj₁ hj₂
  have hmod : ((r₁ : ℤ) + 1) % (gs : ℤ) = ((r₂ : ℤ) + 1) % (gs : ℤ) :=
    hj₁.2.2.symm.trans hj₂.2.2
  have hdvd : (gs : ℤ) ∣ ((r₁ : ℤ) + 1) - ((r₂ : ℤ) + 1) :=
    Int.dvd_of_emod_eq_zero (Int.emod_eq_emod_iff_emod_sub_eq_zero.mp hmod)
  have habs : |((r₁ : ℤ) + 1) - ((r₂ : ℤ) + 1)| < (gs : ℤ) := by
    rw [abs_lt]
    omega
  have := Int.eq_zero_of_abs_lt_dvd hdvd habs
  omega

/-- Every index of `{1..n}` is owned by exactly one rank: the union over all
ranks of the owned sets is `{1..n}` (with disjointness this gives
"exactly once"). -/
theorem ownedIndices_biUnion (n : ℤ) (gs : ℕ) (hgs : 0 < gs) :
    (Finset.range gs).biUnion (fun r => ownedIndices n r gs hgs) = Finset.Icc 1 n := by
  ext j
  simp only [Finset.mem_biUnion, Finset.mem_range, Finset.mem_Icc]
  constructor
  · rintro ⟨r, _, hj⟩
    rw [mem_ownedIndices] at hj
    omega
  · rintro ⟨hj1, hj2⟩
    have hgsZ : (0 : ℤ) < (gs : ℤ) := Int.ofNat_pos.mpr hgs
    have h0 : 0 ≤ (j - 1) % (gs : ℤ) := Int.emod_nonneg _ (by omega)
    have h1 : (j - 1) % (gs : ℤ) < (gs : ℤ) := Int.emod_lt_of_pos _ hgsZ
    refine ⟨((j - 1) % (gs : ℤ)).toNat, by omega, ?_⟩
    rw [mem_ownedIndices]
    have hcast : ((((j - 1) % (gs : ℤ)).toNat : ℤ)) = (j - 1) % (gs : ℤ) :=
      Int.toNat_of_nonneg h0
    refine ⟨?_, hj2, ?_⟩
    · rw [hcast]
      have : (j - 1) % (gs : ℤ) ≤ j - 1 := by
        by_cases hc : j - 1 < (gs : ℤ)
        · rw [Int.emod_eq_of_lt (by omega) hc]
        · omega
      omega
    · rw [hcast]
      conv_lhs => rw [show j = (j - 1) + 1 by ring]
      rw [Int.add_emod, Int.add_emod ((j - 1) % (gs : ℤ)) 1,
        Int.emod_emod_of_dvd _ dvd_rfl]

/-! Section: the round loop. -/

/-- The rounds a rank executes are exactly the prefix of nonzero broadcast
values, and each round's recorded partial is `mypi` of that round's
granularity alone — no dependence on the state left by earlier rounds. -/
theorem runRank_fst (rank gs : ℕ) (hgs : 0 < gs) (s : IterState) (inputs : List ℤ) :
    (runRank rank gs hgs s inputs).1 =
      (inputs.takeWhile (fun m => m != 0)).map (fun m => (m, mypi m rank gs hgs)) := by
  induction inputs generalizing s with
  | nil => simp [runRank]
  | cons n rest ih =>
    by_cases h : n = 0
    · subst h
      simp [runRank]
    · have hb : (n != 0) = true := by simpa using h
      simp only [runRank, if_neg h, List.takeWhile_cons, hb, if_true, List.map_cons]
      rw [ih, roundCompute_mypi_const]

/-- A rank leaves the round loop exactly when a `0` occurs among the broadcast
values. -/
theorem runRank_snd (rank gs : ℕ) (hgs : 0 < gs) (s : IterState) (inputs : List ℤ) :
    ((runRank rank gs hgs s inputs).2 = true) ↔ 0 ∈ inputs := by
  induction inputs generalizing s with
  | nil => simp [runRank]
  | cons n rest ih =>
    by_cases h : n = 0
    · subst h
      simp [runRank]
    · simp [runRank, h, ih, List.mem_cons, Ne.symm h]

/-! Section: claim theorems. -/

/-- C1. For every `n ≥ 1` and every `groupSize ≥ 1`, the owned sample
index sets of the ranks, as produced by the strided for-loop, are pairwise
disjoint and their union over `rank ∈ [0, groupSize)` is exactly `{1..n}` —
each index owned exactly once. -/
theorem owned_partition (n : ℤ) (gs : ℕ) (hn : 1 ≤ n) (hgs : 0 < gs) :
    (∀ r₁ r₂ : ℕ, r₁ < gs → r₂ < gs → r₁ ≠ r₂ →
        Disjoint (ownedIndices n r₁ gs hgs) (ownedIndices n r₂ gs hgs)) ∧
    (Finset.range gs).biUnion (fun r => ownedIndices n r gs hgs) = Finset.Icc 1 n :=
  ⟨fun _ _ h₁ h₂ hne => ownedIndices_disjoint hgs h₁ h₂ hne, ownedIndices_biUnion n gs hgs⟩

/-- Witness for `owned_partition` at `n = 7`, `groupSize = 3`. -/
theorem owned_partition_witness :
    (1 : ℤ) ≤ 7 ∧ 0 < 3 ∧
      ((∀ r₁ r₂ : ℕ, r₁ < 3 → r₂ < 3 → r₁ ≠ r₂ →
          Disjoint (ownedIndices 7 r₁ 3 (by norm_num)) (ownedIndices 7 r₂ 3 (by norm_num))) ∧
        (Finset.range 3).biUnion (fun r => ownedIndices 7 r 3 (by norm_num)) =
          Finset.Icc 1 7) :=
  ⟨by norm_num, by norm_num, owned_partition 7 3 (by norm_num) (by norm_num)⟩

/-- C2. For every `n ≥ 1` and `groupSize ≥ 1`, the reduced total delivered
to the coordinator — the sum over all ranks of their partials `mypi` — equals,
in exact arithmetic, the sequential total a single worker (`groupSize = 1`,
rank 0) computes over all `n` indices. -/
theorem reduced_total_eq_sequential (n : ℤ) (gs : ℕ) (hn : 1 ≤ n) (hgs : 0 < gs) :
    reducedPi n gs hgs = mypi n 0 1 Nat.one_pos := by
  have hdisj : Set.PairwiseDisjoint ↑(Finset.range gs)
      (fun r => ownedIndices n r gs hgs) := fun a ha b hb hab =>
    ownedIndices_disjoint hgs (Finset.mem_range.mp ha) (Finset.mem_range.mp hb) hab
  have h01 : ownedIndices n 0 1 Nat.one_pos = Finset.Icc 1 n := by
    simpa [Finset.range_one] using ownedIndices_biUnion n 1 Nat.one_pos
  unfold reducedPi
  calc
    ∑ r ∈ Finset.range gs, mypi n r gs hgs
        = ∑ r ∈ Finset.range gs, (1 / (n : ℚ)) *
            ∑ j ∈ ownedIndices n r gs hgs, kernel ((1 / (n : ℚ)) * ((j : ℚ) - 1/2)) :=
      Finset.sum_congr rfl fun r _ => mypi_eq n r gs hgs
    _ = (1 / (n : ℚ)) * ∑ r ∈ Finset.range gs,
            ∑ j ∈ ownedIndices n r gs hgs, kernel ((1 / (n : ℚ)) * ((j : ℚ) - 1/2)) := by
      rw [Finset.mul_sum]
    _ = (1 / (n : ℚ)) * ∑ j ∈ (Finset.range gs).biUnion (fun r => ownedIndices n r gs hgs),
            kernel ((1 / (n : ℚ)) * ((j : ℚ) - 1/2)) := by
      rw [Finset.sum_biUnion hdisj]
    _ = (1 / (n : ℚ)) * ∑ j ∈ Finset.Icc 1 n,
            kernel ((1 / (n : ℚ)) * ((j : ℚ) - 1/2)) := by
      rw [ownedIndices_biUnion]
    _ = mypi n 0 1 Nat.one_pos := by
      rw [mypi_eq, h01]

/-- Witness for `reduced_total_eq_sequential` at `n = 4`, `groupSize = 3`. -/
theorem reduced_total_eq_sequential_witness :
    (1 : ℤ) ≤ 4 ∧ 0 < 3 ∧ reducedPi 4 3 (by norm_num) = mypi 4 0 1 Nat.one_pos :=
  ⟨by norm_num, by norm_num, reduced_total_eq_sequential 4 3 (by norm_num) (by norm_num)⟩

/-- C3. For every granularity `n`, rank and group size, the rank's partial
equals the sum over its owned indices `i` of `h * f(h*(i - 0.5))` with
`h = 1/n` and `f(x) = 4/(1+x^2)` — the `h` scaling applied per accumulated
term (in exact arithmetic this agrees with the code's single final scaling
`mypi = h * sum`). -/
theorem mypi_eq_per_term (n : ℤ) (rank gs : ℕ) (hgs : 0 < gs) :
    mypi n rank gs hgs =
      ∑ i ∈ ownedIndices n rank gs hgs,
        (1 / (n : ℚ)) * kernel ((1 / (n : ℚ)) * ((i : ℚ) - 1/2)) := by
  rw [mypi_eq, Finset.mul_sum]

/-- Witness for `mypi_eq_per_term` at `n = 5`, `rank = 1`, `groupSize = 2`. -/
theorem mypi_eq_per_term_witness :
    0 < 2 ∧ mypi 5 1 2 (by norm_num) =
      ∑ i ∈ ownedIndices 5 1 2 (by norm_num),
        (1 / (5 : ℚ)) * kernel ((1 / (5 : ℚ)) * ((i : ℚ) - 1/2)) :=
  ⟨by norm_num, mypi_eq_per_term 5 1 2 (by norm_num)⟩

/-- If a rank's first owned index already exceeds `n`, it owns nothing. -/
theorem ownedIndices_eq_empty {n : ℤ} {rank gs : ℕ} {hgs : 0 < gs}
    (h : n < (rank : ℤ) + 1) : ownedIndices n rank gs hgs = ∅ := by
  rw [Finset.eq_empty_iff_forall_not_mem]
  intro j hj
  rw [mem_ownedIndices] at hj
  omega

/-- A rank owning nothing computes the partial `h * 0 = 0` exactly. -/
theorem mypi_eq_zero {n : ℤ} {rank gs : ℕ} {hgs : 0 < gs}
    (h : n < (rank : ℤ) + 1) : mypi n rank gs hgs = 0 := by
  rw [mypi_eq, ownedIndices_eq_empty h, Finset.sum_empty, mul_zero]

/-- C4. A broadcast granularity of `0` (observed identically by every rank,
by the broadcast guarantee built into the run model) makes every rank leave the
round loop in that same round with no partial computed and no reduction
entered, and no rank proceeds to a further round; a broadcast `0` is the only
path out of the round loop, and termination is uniform: any two ranks execute
the same number of rounds on the same broadcast sequence. -/
theorem broadcast_zero_terminates (rank rank' gs : ℕ) (hgs : 0 < gs)
    (s s' : IterState) (rest inputs : List ℤ) :
    runRank rank gs hgs s (0 :: rest) = ([], true) ∧
    ((runRank rank gs hgs s inputs).2 = true ↔ 0 ∈ inputs) ∧
    (runRank rank gs hgs s inputs).1.length =
      (runRank rank' gs hgs s' inputs).1.length := by
  refine ⟨by simp [runRank], runRank_snd rank gs hgs s inputs, ?_⟩
  rw [runRank_fst, runRank_fst]
  simp

/-- Witness for `broadcast_zero_terminates` at `groupSize = 2`, ranks 0 and 1,
broadcast sequence `[3, 0]`. -/
theorem broadcast_zero_terminates_witness :
    0 < 2 ∧
      (runRank 0 2 (by norm_num) ⟨0, 0, 0, 0, 0⟩ (0 :: [(3 : ℤ)]) = ([], true) ∧
        ((runRank 0 2 (by norm_num) ⟨0, 0, 0, 0, 0⟩ [(3 : ℤ), 0]).2 = true ↔
          0 ∈ [(3 : ℤ), 0]) ∧
        (runRank 0 2 (by norm_num) ⟨0, 0, 0, 0, 0⟩ [(3 : ℤ), 0]).1.length =
          (runRank 1 2 (by norm_num) ⟨1, 1, 1, 1, 1⟩ [(3 : ℤ), 0]).1.length) :=
  ⟨by norm_num,
    broadcast_zero_terminates 0 1 2 (by norm_num) ⟨0, 0, 0, 0, 0⟩ ⟨1, 1, 1, 1, 1⟩
      [(3 : ℤ)] [(3 : ℤ), 0]⟩

/-- C5. A negative broadcast granularity reports no error and does not
terminate the group: the strided loop executes zero iterations (the owned set
is empty), the partial is the degenerate `h * 0 = 0`, the reduction completes
with total `0`, and every rank continues to the next round. -/
theorem negative_granularity_degenerate (n : ℤ) (rank gs : ℕ) (hgs : 0 < gs)
    (hn : n < 0) (s : IterState) (rest : List ℤ) :
    ownedIndices n rank gs hgs = ∅ ∧
    mypi n rank gs hgs = 0 ∧
    reducedPi n gs hgs = 0 ∧
    runRank rank gs hgs s (n :: rest) =
      ((n, 0) :: (runRank rank gs hgs (roundCompute n rank gs hgs s) rest).1,
        (runRank rank gs hgs (roundCompute n rank gs hgs s) rest).2) := by
  have hzero : ∀ r : ℕ, mypi n r gs hgs = 0 := fun r => mypi_eq_zero (by omega)
  refine ⟨ownedIndices_eq_empty (by omega), hzero rank, ?_, ?_⟩
  · unfold reducedPi
    exact Finset.sum_eq_zero fun r _ => hzero r
  · have hne : n ≠ 0 := by omega
    simp only [runRank, if_neg hne]
    rw [roundCompute_mypi_const, hzero rank]

/-- Witness for `negative_granularity_degenerate` at `n = -3`, `rank = 1`,
`groupSize = 2`, continuation `[0]`. -/
theorem negative_granularity_degenerate_witness :
    0 < 2 ∧ (-3 : ℤ) < 0 ∧
      (ownedIndices (-3) 1 2 (by norm_num) = ∅ ∧
        mypi (-3) 1 2 (by norm_num) = 0 ∧
        reducedPi (-3) 2 (by norm_num) = 0 ∧
        runRank 1 2 (by norm_num) ⟨0, 0, 0, 0, 0⟩ ((-3) :: [(0 : ℤ)]) =
          (((-3 : ℤ), (0 : ℚ)) ::
              (runRank 1 2 (by norm_num)
                (roundCompute (-3) 1 2 (by norm_num) ⟨0, 0, 0, 0, 0⟩) [(0 : ℤ)]).1,
            (runRank 1 2 (by norm_num)
              (roundCompute (-3) 1 2 (by norm_num) ⟨0, 0, 0, 0, 0⟩) [(0 : ℤ)]).2)) :=
  ⟨by norm_num, by norm_num,
    negative_granularity_degenerate (-3) 1 2 (by norm_num) (by norm_num)
      ⟨0, 0, 0, 0, 0⟩ [(0 : ℤ)]⟩

/-- C6. If `n ≥ 1` and `n < groupSize`, a rank with `rank + 1 > n` owns no
sample index and its partial is exactly `0` — not an error and not an absent
value: the accumulator stays `0` and the final scaling `h * 0` is `0`. -/
theorem idle_rank_partial_zero (n : ℤ) (rank gs : ℕ) (hgs : 0 < gs) (hn : 1 ≤ n)
    (hlt : n < (gs : ℤ)) (hr : n < (rank : ℤ) + 1) :
    ownedIndices n rank gs hgs = ∅ ∧ mypi n rank gs hgs = 0 :=
  ⟨ownedIndices_eq_empty hr, mypi_eq_zero hr⟩

/-- Witness for `idle_rank_partial_zero` at `n = 2`, `groupSize = 5`,
`rank = 2`. -/
theorem idle_rank_partial_zero_witness :
    0 < 5 ∧ (1 : ℤ) ≤ 2 ∧ (2 : ℤ) < (5 : ℕ) ∧ (2 : ℤ) < (2 : ℕ) + 1 ∧
      (ownedIndices 2 2 5 (by norm_num) = ∅ ∧ mypi 2 2 5 (by norm_num) = 0) :=
  ⟨by norm_num, by norm_num, by norm_num, by norm_num,
    idle_rank_partial_zero 2 2 5 (by norm_num) (by norm_num) (by norm_num) (by norm_num)⟩

/-- C7. The per-round partial computation is a pure, deterministic function
of exactly `(n, rank, groupSize)`: the partial produced by a round does not
depend on the locals' values entering the round, it equals `mypi n rank gs`,
and over a whole run every round's recorded partial is `mypi` of that round's
granularity alone, whatever earlier rounds did. -/
theorem round_is_pure (n : ℤ) (rank gs : ℕ) (hgs : 0 < gs) (s₁ s₂ : IterState)
    (inputs : List ℤ) :
    (roundCompute n rank gs hgs s₁).mypi = (roundCompute n rank gs hgs s₂).mypi ∧
    (roundCompute n rank gs hgs s₁).mypi = mypi n rank gs hgs ∧
    (runRank rank gs hgs s₁ inputs).1 =
      (inputs.takeWhile (fun m => m != 0)).map (fun m => (m, mypi m rank gs hgs)) := by
  refine ⟨?_, roundCompute_mypi_const n rank gs hgs s₁, runRank_fst rank gs hgs s₁ inputs⟩
  rw [roundCompute_mypi_const, roundCompute_mypi_const]

/-- Witness for `round_is_pure` at `n = 3`, `rank = 0`, `groupSize = 2`, two
different incoming states, inputs `[3, 0]`. -/
theorem round_is_pure_witness :
    0 < 2 ∧
      ((roundCompute 3 0 2 (by norm_num) ⟨0, 0, 0, 0, 0⟩).mypi =
          (roundCompute 3 0 2 (by norm_num) ⟨5, 7, 9, 11, 13⟩).mypi ∧
        (roundCompute 3 0 2 (by norm_num) ⟨0, 0, 0, 0, 0⟩).mypi =
          mypi 3 0 2 (by norm_num) ∧
        (runRank 0 2 (by norm_num) ⟨0, 0, 0, 0, 0⟩ [(3 : ℤ), 0]).1 =
          ([(3 : ℤ), 0].takeWhile (fun m => m != 0)).map
            (fun m => (m, mypi m 0 2 (by norm_num)))) :=
  ⟨by norm_num,
    round_is_pure 3 0 2 (by norm_num) ⟨0, 0, 0, 0, 0⟩ ⟨5, 7, 9, 11, 13⟩ [(3 : ℤ), 0]⟩

/-- C8. Whenever the coordinator supplies granularity `0`, every rank
reaches finalization and the process exits with status `0`; no other exit code
is ever produced by the program's normal control flow. -/
theorem zero_granularity_exit_success (rank gs : ℕ) (hgs : 0 < gs)
    (inputs : List ℤ) :
    (0 ∈ inputs → runProgram rank gs hgs inputs = some 0) ∧
    (∀ c : ℕ, runProgram rank gs hgs inputs = some c → c = 0) := by
  unfold runProgram
  constructor
  · intro h0
    rw [if_pos ((runRank_snd rank gs hgs _ inputs).mpr h0)]
  · intro c hc
    by_cases h : (runRank rank gs hgs ⟨0, 0, 0, 0, 0⟩ inputs).2 = true
    · rw [if_pos h] at hc
      exact (Option.some_inj.mp hc).symm
    · rw [if_neg h] at hc
      cases hc

/-- Witness for `zero_granularity_exit_success` at `rank = 1`,
`groupSize = 4`, inputs `[2, 0]`. -/
theorem zero_granularity_exit_success_witness :
    0 < 4 ∧
      ((0 ∈ [(2 : ℤ), 0] → runProgram 1 4 (by norm_num) [(2 : ℤ), 0] = some 0) ∧
        (∀ c : ℕ, runProgram 1 4 (by norm_num) [(2 : ℤ), 0] = some c → c = 0)) :=
  ⟨by norm_num, zero_granularity_exit_success 1 4 (by norm_num) [(2 : ℤ), 0]⟩

/-- C9. For every completed round, if the clock is monotone (the reading
after the reduction is at least the reading before the integration step), the
elapsed duration `t1 - t0` reported by the coordinator is nonnegative. -/
theorem elapsed_nonneg (t0 t1 : ℚ) (h : t0 ≤ t1) : 0 ≤ elapsed t0 t1 := by
  unfold elapsed
  linarith

/-- Witness for `elapsed_nonneg` at `t0 = 1`, `t1 = 5/2`. -/
theorem elapsed_nonneg_witness : (1 : ℚ) ≤ 5/2 ∧ 0 ≤ elapsed 1 (5/2) :=
  ⟨by norm_num, elapsed_nonneg 1 (5/2) (by norm_num)⟩

/-- C10. The division `h = 1.0 / n` is never a division by zero: every
round whose integration step runs has a nonzero granularity, because a
broadcast `0` leaves the loop before the step width is computed. -/
theorem integration_granularity_nonzero (rank gs : ℕ) (hgs : 0 < gs)
    (s : IterState) (inputs : List ℤ) :
    ∀ p ∈ (runRank rank gs hgs s inputs).1, p.1 ≠ 0 := by
  intro p hp
  rw [runRank_fst] at hp
  obtain ⟨m, hm, rfl⟩ := List.mem_map.mp hp
  have := List.mem_takeWhile_imp (p := fun m => m != 0) hm
  simpa using this

/-- Witness for `integration_granularity_nonzero` at `rank = 0`,
`groupSize = 2`, inputs `[3, -1, 0, 4]`. -/
theorem integration_granularity_nonzero_witness :
    0 < 2 ∧
      (∀ p ∈ (runRank 0 2 (by norm_num) ⟨0, 0, 0, 0, 0⟩ [(3 : ℤ), -1, 0, 4]).1,
        p.1 ≠ 0) :=
  ⟨by norm_num,
    integration_granularity_nonzero 0 2 (by norm_num) ⟨0, 0, 0, 0, 0⟩
      [(3 : ℤ), -1, 0, 4]⟩

end MpiPi
